import Mathlib

/-!
Shallow embedding of the `MergeLocals` pass (`src/src/passes/MergeLocals.cpp`).

The pass works on a function body, a tree of expressions with indexed local
slots.  Node identity matters (the C++ code keys its analysis maps on node
pointers and mutates nodes in place), so every node carries a numeric `id`;
a well-formed input tree has pairwise distinct ids, and the instrumentation
step allocates fresh ids above the input's maximum.

The def-use analysis engine (`LocalGraph`, from `ir/local-graph.h`) is not
part of the source slice; its interface and its output contract are modelled
from the spec where needed.
-/

namespace Wasm

/-- Expression tree of the embedded IR: constants, reads of a local slot
(`get_local`), writes of a local slot (`set_local`; evaluated in value
position it behaves as `tee_local`, returning the written value), sequencing,
and a two-armed conditional.  Each node carries an identity `id`, modelling
the node pointers of the C++ IR. -/
inductive Expr : Type
  | const (id : Nat) (v : Int)
  | getLocal (id : Nat) (idx : Nat)
  | setLocal (id : Nat) (idx : Nat) (value : Expr)
  | seq (id : Nat) (a b : Expr)
  | iff (id : Nat) (c t f : Expr)
deriving DecidableEq, Repr

/-- Environment of local slots for evaluation. -/
def Env : Type := Nat → Int

/-- Evaluation semantics of the embedded IR: an expression maps an
environment of locals to the updated environment and the produced value.
`setLocal` returns the value written (tee semantics), `seq` returns the value
of its second component, `iff` tests its condition against zero. -/
def eval : Expr → Env → Env × Int
  | .const _ v, env => (env, v)
  | .getLocal _ idx, env => (env, env idx)
  | .setLocal _ idx v, env =>
      match eval v env with
      | (env1, x) => (fun j => if j = idx then x else env1 j, x)
  | .seq _ a b, env =>
      match eval a env with
      | (env1, _) => eval b env1
  | .iff _ c t f, env =>
      match eval c env with
      | (env1, x) => if x = 0 then eval f env1 else eval t env1

/-- Copy record, one per detected copy `set_local $D (get_local $S)`:
the id and destination slot of the outer `SetLocal`, and the id and slot of
the trivial self-write (`tee_local $S`) the instrumentation inserted as its
value.  The C++ records the outer `SetLocal*`; the remaining fields are
reachable from it and are unchanged until the copy is cleaned up, so we
record them directly. -/
structure Copy where
  copyId : Nat
  destIdx : Nat
  trivId : Nat
  srcIdx : Nat
deriving DecidableEq, Repr

/-- Instrumentation walk, embedding `doWalkFunction`'s first phase with
`visitSetLocal`: a post-order traversal that rewrites every `SetLocal` whose
value is a `GetLocal` of a different slot from `D := read S` into
`D := (S := read S)`, allocating the trivial self-write a fresh id, and
records the copies in encounter order.  Returns the instrumented tree, the
copy list, and the next fresh id.  The C++ tests `curr->value` after the
children were walked; the walk never rewrites a `GetLocal` node, so the
value is a `GetLocal` at visit time exactly when it is one in the input, and
the copy test is stated on the input child. -/
def instrument (fresh : Nat) : Expr → Expr × List Copy × Nat
  | .const i v => (.const i v, [], fresh)
  | .getLocal i x => (.getLocal i x, [], fresh)
  | .setLocal i idx (.getLocal gi gidx) =>
      if gidx ≠ idx then
        (.setLocal i idx (.setLocal fresh gidx (.getLocal gi gidx)),
          [⟨i, idx, fresh, gidx⟩], fresh + 1)
      else
        (.setLocal i idx (.getLocal gi gidx), [], fresh)
  | .setLocal i idx v =>
      match instrument fresh v with
      | (v', cs, f1) => (.setLocal i idx v', cs, f1)
  | .seq i a b =>
      match instrument fresh a with
      | (a', ca, f1) =>
        match instrument f1 b with
        | (b', cb, f2) => (.seq i a' b', ca ++ cb, f2)
  | .iff i c t f =>
      match instrument fresh c with
      | (c', cc, f1) =>
        match instrument f1 t with
        | (t', ct, f2) =>
          match instrument f2 f with
          | (f', cf, f3) => (.iff i c' t' f', cc ++ ct ++ cf, f3)

/-- Interface of the def-use dependency graph the optimizer consumes
(`LocalGraph` with `computeInfluences`): for a write node (by id), the read
nodes that may observe its value; for a read node (by id), the writes that
may be its reaching definition, `none` standing for the entry value of the
slot (a parameter or the implicit zero). -/
structure LocalGraph where
  setInfluences : Nat → List Nat
  getSetses : Nat → List (Option Nat)

/-- Eligibility of one copy, the `canDoThemAll` loop of `optimizeCopies`:
every read influenced by the copy's trivial self-write must have exactly one
reaching definition. -/
def eligible (g : LocalGraph) (c : Copy) : Bool :=
  (g.setInfluences c.trivId).all fun r => (g.getSetses r).length == 1

/-- Renaming step of the merge: every `GetLocal` whose id is listed has its
slot index replaced by `newIdx` (the C++ mutates `influencedGet->index`
through the node pointer). -/
def renameGets (L : List Nat) (newIdx : Nat) : Expr → Expr
  | .const i v => .const i v
  | .getLocal i idx => if i ∈ L then .getLocal i newIdx else .getLocal i idx
  | .setLocal i idx v => .setLocal i idx (renameGets L newIdx v)
  | .seq i a b => .seq i (renameGets L newIdx a) (renameGets L newIdx b)
  | .iff i c t f =>
      .iff i (renameGets L newIdx c) (renameGets L newIdx t) (renameGets L newIdx f)

/-- Drop a self-write wrapper: the value of a `SetLocal` wrapper node, used
by the cleanup `copy->value = trivial->value`. -/
def stripTee : Expr → Expr
  | .setLocal _ _ inner => inner
  | e => e

/-- Cleanup of one copy's instrumentation: the `SetLocal` node with id `cid`
has its value unwrapped from `(S := read S)` back to `read S`. -/
def unwrap (cid : Nat) : Expr → Expr
  | .const i v => .const i v
  | .getLocal i idx => .getLocal i idx
  | .setLocal i idx v =>
      if i = cid then .setLocal i idx (stripTee v)
      else .setLocal i idx (unwrap cid v)
  | .seq i a b => .seq i (unwrap cid a) (unwrap cid b)
  | .iff i c t f => .iff i (unwrap cid c) (unwrap cid t) (unwrap cid f)

/-- Body of the `for (auto* copy : copies)` loop of `optimizeCopies`: check
eligibility against the graph, rename every influenced read to the copy's
destination slot when eligible, and unconditionally remove the
instrumentation. -/
def processCopy (g : LocalGraph) (tree : Expr) (c : Copy) : Expr :=
  let canDoThemAll := eligible g c
  let t1 := if canDoThemAll then renameGets (g.setInfluences c.trivId) c.destIdx tree
            else tree
  unwrap c.copyId t1

/-- The optimizer loop of `optimizeCopies`, processing the recorded copies
in order against the single graph snapshot `g`. -/
def optimizeCopies (g : LocalGraph) (copies : List Copy) (tree : Expr) : Expr :=
  copies.foldl (processCopy g) tree

/-- Union of two reaching-definition sets (control-flow merge), keeping the
first list's order and deduplicating. -/
def mergeDefs (l1 l2 : List (Option Nat)) : List (Option Nat) :=
  l1 ++ l2.filter fun d => decide (d ∉ l1)

/-- Modelled from the spec: the reaching-definition analysis of the external
Dependency Graph engine (`ir/local-graph.h`, not part of the source slice).
Walks the tree in evaluation order carrying, per slot, the set of writes that
may currently reach (`none` is the entry definition); a `getLocal` records
the current set for its slot, a `setLocal` becomes the sole definition of its
slot after its value is analyzed, and a conditional joins the two arms'
states pointwise.  Returns the final state and the read → reaching-defs
entries. -/
def analyze : Expr → (Nat → List (Option Nat)) →
    (Nat → List (Option Nat)) × List (Nat × List (Option Nat))
  | .const _ _, st => (st, [])
  | .getLocal i idx, st => (st, [(i, st idx)])
  | .setLocal i idx v, st =>
      match analyze v st with
      | (st1, acc) => (fun j => if j = idx then [some i] else st1 j, acc)
  | .seq _ a b, st =>
      match analyze a st with
      | (st1, acc1) =>
        match analyze b st1 with
        | (st2, acc2) => (st2, acc1 ++ acc2)
  | .iff _ c t f, st =>
      match analyze c st with
      | (st1, acc1) =>
        match analyze t st1 with
        | (st2, acc2) =>
          match analyze f st1 with
          | (st3, acc3) => (fun j => mergeDefs (st2 j) (st3 j), acc1 ++ acc2 ++ acc3)

/-- Modelled from the spec: `LocalGraph(func); computeInfluences()` of the
external engine.  `getSetses` is the reaching-definition map produced by
`analyze`; `setInfluences` is its inverse, a write influencing exactly the
reads whose reaching-definition set contains it. -/
def computeLocalGraph (e : Expr) : LocalGraph :=
  let result := analyze e fun _ => [none]
  { getSetses := fun g => (result.2.lookup g).getD []
    setInfluences := fun s => (result.2.filter fun p => decide (some s ∈ p.2)).map Prod.fst }

/-- All node ids of a tree, in traversal order. -/
def allIds : Expr → List Nat
  | .const i _ => [i]
  | .getLocal i _ => [i]
  | .setLocal i _ v => i :: allIds v
  | .seq i a b => i :: (allIds a ++ allIds b)
  | .iff i c t f => i :: (allIds c ++ allIds t ++ allIds f)

/-- Ids of the `SetLocal` nodes of a tree. -/
def setIds : Expr → List Nat
  | .const _ _ => []
  | .getLocal _ _ => []
  | .setLocal i _ v => i :: setIds v
  | .seq _ a b => setIds a ++ setIds b
  | .iff _ c t f => setIds c ++ setIds t ++ setIds f

/-- Largest node id of a tree. -/
def maxId (e : Expr) : Nat := (allIds e).foldr max 0

/-- Instrumented tree of the pass on input `e` (fresh ids start above every
id of `e`). -/
def instrumented (e : Expr) : Expr := (instrument (maxId e + 1) e).1

/-- Copies the instrumentation walk records on input `e`. -/
def passCopies (e : Expr) : List Copy := (instrument (maxId e + 1) e).2.1

/-- Graph snapshot the pass consults: the analysis applied once to the
instrumented tree. -/
def passGraph (A : Expr → LocalGraph) (e : Expr) : LocalGraph := A (instrumented e)

/-- The whole pass (`doWalkFunction`), parameterized by the dependency-graph
engine: instrument, compute the graph once over the instrumented tree, then
run the optimizer loop. -/
def runPass (A : Expr → LocalGraph) (e : Expr) : Expr :=
  optimizeCopies (passGraph A e) (passCopies e) (instrumented e)

/-- The `MergeLocals` pass with the spec-modelled dependency-graph engine. -/
def mergeLocals (e : Expr) : Expr := runPass computeLocalGraph e

/-- Slot index of the (first) `GetLocal` node with id `r`, if present. -/
def lookupGet : Expr → Nat → Option Nat
  | .const _ _, _ => none
  | .getLocal i idx, r => if i = r then some idx else none
  | .setLocal _ _ v, r => lookupGet v r
  | .seq _ a b, r => (lookupGet a r).orElse fun _ => lookupGet b r
  | .iff _ c t f, r =>
      ((lookupGet c r).orElse fun _ => lookupGet t r).orElse fun _ => lookupGet f r

/-- Subterm test: `isSub s t` holds when `s` occurs as a node of `t`. -/
def isSub (s : Expr) : Expr → Bool
  | .const i v => s == .const i v
  | .getLocal i idx => s == .getLocal i idx
  | .setLocal i idx v => s == .setLocal i idx v || isSub s v
  | .seq i a b => s == .seq i a b || isSub s a || isSub s b
  | .iff i c t f => s == .iff i c t f || isSub s c || isSub s t || isSub s f

/-- Tree skeleton: every `GetLocal` slot index erased (set to zero), all
other structure kept, including `SetLocal` destination slots and all ids. -/
def skeleton : Expr → Expr
  | .const i v => .const i v
  | .getLocal i _ => .getLocal i 0
  | .setLocal i idx v => .setLocal i idx (skeleton v)
  | .seq i a b => .seq i (skeleton a) (skeleton b)
  | .iff i c t f => .iff i (skeleton c) (skeleton t) (skeleton f)

/-- Does the tree contain a copy-shaped write, a `SetLocal` whose value is a
`GetLocal` of a different slot? -/
def hasCopy : Expr → Bool
  | .const _ _ => false
  | .getLocal _ _ => false
  | .setLocal _ idx (.getLocal _ g) => decide (g ≠ idx)
  | .setLocal _ _ v => hasCopy v
  | .seq _ a b => hasCopy a || hasCopy b
  | .iff _ c t f => hasCopy c || hasCopy t || hasCopy f

/-- Claim-side description of copy detection: the `(id, destination slot,
source slot)` of every `SetLocal` whose value is a `GetLocal` of a different
slot, in post-order traversal encounter order.  Stated from the claim's
words, to be compared with what `instrument` records. -/
def copySpec : Expr → List (Nat × Nat × Nat)
  | .const _ _ => []
  | .getLocal _ _ => []
  | .setLocal i idx v =>
      copySpec v ++
        (match v with
          | .getLocal _ g => if g ≠ idx then [(i, idx, g)] else []
          | _ => [])
  | .seq _ a b => copySpec a ++ copySpec b
  | .iff _ c t f => copySpec c ++ copySpec t ++ copySpec f

/-- Contract of the Dependency Graph over the instrumented tree, as the spec
states it for the writes the optimizer queries: every read influenced by a
copy's trivial self-write reads (in the instrumented tree) the very slot the
self-write writes, and the self-write is among that read's reaching
definitions. -/
def InflContract (g : LocalGraph) (t : Expr) (copies : List Copy) : Prop :=
  ∀ c ∈ copies, ∀ r ∈ g.setInfluences c.trivId,
    lookupGet t r = some c.srcIdx ∧ some c.trivId ∈ g.getSetses r


/-- Renaming phase of the optimizer in isolation: the renames of all
eligible copies, in recorded order, decided against the single graph
snapshot `g`. -/
def renames (g : LocalGraph) (copies : List Copy) (t : Expr) : Expr :=
  copies.foldl
    (fun acc c =>
      if eligible g c then renameGets (g.setInfluences c.trivId) c.destIdx acc else acc) t

/-- Cleanup phase of the optimizer in isolation: every recorded copy's
instrumentation removed, in recorded order. -/
def unwrapAll (copies : List Copy) (t : Expr) : Expr :=
  copies.foldl (fun acc c => unwrap c.copyId acc) t

theorem optionMapOrElse {α β : Type} (f : α → β) (x : Option α) (y : Unit → Option α) :
    (x.orElse y).map f = (x.map f).orElse fun u => (y u).map f := by
  cases x <;> rfl

theorem lookupGet_renameGets (L : List Nat) (n : Nat) (t : Expr) (r : Nat) :
    lookupGet (renameGets L n t) r
      = (lookupGet t r).map fun old => if r ∈ L then n else old := by
  induction t with
  | const i v => simp [renameGets, lookupGet]
  | getLocal i idx =>
      by_cases hL : i ∈ L <;> by_cases hr : i = r
      · subst hr; simp [renameGets, lookupGet, hL]
      · simp [renameGets, lookupGet, hL, hr]
      · subst hr; simp [renameGets, lookupGet, hL]
      · simp [renameGets, lookupGet, hL, hr]
  | setLocal i idx v ih => simp [renameGets, lookupGet, ih]
  | seq i a b iha ihb => simp [renameGets, lookupGet, iha, ihb, optionMapOrElse]
  | iff i c t f ihc iht ihf =>
      simp [renameGets, lookupGet, ihc, iht, ihf, optionMapOrElse]

theorem lookupGet_stripTee (v : Expr) (r : Nat) :
    lookupGet (stripTee v) r = lookupGet v r := by
  cases v <;> simp [stripTee, lookupGet]

theorem lookupGet_unwrap (cid : Nat) (t : Expr) (r : Nat) :
    lookupGet (unwrap cid t) r = lookupGet t r := by
  induction t with
  | const i v => rfl
  | getLocal i idx => rfl
  | setLocal i idx v ih =>
      by_cases h : i = cid <;> simp [unwrap, lookupGet, h, ih, lookupGet_stripTee]
  | seq i a b iha ihb => simp [unwrap, lookupGet, iha, ihb]
  | iff i c t f ihc iht ihf => simp [unwrap, lookupGet, ihc, iht, ihf]

theorem stripTee_renameGets (L : List Nat) (n : Nat) (v : Expr) :
    stripTee (renameGets L n v) = renameGets L n (stripTee v) := by
  cases v with
  | getLocal i idx => by_cases h : i ∈ L <;> simp [renameGets, stripTee, h]
  | const i v => rfl
  | setLocal i idx v => rfl
  | seq i a b => rfl
  | iff i c t f => rfl

theorem unwrap_renameGets (cid : Nat) (L : List Nat) (n : Nat) (t : Expr) :
    unwrap cid (renameGets L n t) = renameGets L n (unwrap cid t) := by
  induction t with
  | const i v => rfl
  | getLocal i idx => by_cases h : i ∈ L <;> simp [renameGets, unwrap, h]
  | setLocal i idx v ih =>
      by_cases h : i = cid <;> simp [renameGets, unwrap, h, ih, stripTee_renameGets]
  | seq i a b iha ihb => simp [renameGets, unwrap, iha, ihb]
  | iff i c t f ihc iht ihf => simp [renameGets, unwrap, ihc, iht, ihf]

theorem unwrap_eq_of_not_mem (cid : Nat) (t : Expr) (h : cid ∉ setIds t) :
    unwrap cid t = t := by
  induction t with
  | const i v => rfl
  | getLocal i idx => rfl
  | setLocal i idx v ih =>
      simp only [setIds, List.mem_cons, not_or] at h
      simp [unwrap, Ne.symm h.1, ih h.2]
  | seq i a b iha ihb =>
      simp only [setIds, List.mem_append, not_or] at h
      simp [unwrap, iha h.1, ihb h.2]
  | iff i c t f ihc iht ihf =>
      simp only [setIds, List.mem_append, not_or] at h
      simp [unwrap, ihc h.1.1, iht h.1.2, ihf h.2]

theorem skeleton_renameGets (L : List Nat) (n : Nat) (t : Expr) :
    skeleton (renameGets L n t) = skeleton t := by
  induction t with
  | const i v => rfl
  | getLocal i idx => by_cases h : i ∈ L <;> simp [renameGets, skeleton, h]
  | setLocal i idx v ih => simp [renameGets, skeleton, ih]
  | seq i a b iha ihb => simp [renameGets, skeleton, iha, ihb]
  | iff i c t f ihc iht ihf => simp [renameGets, skeleton, ihc, iht, ihf]

theorem allIds_renameGets (L : List Nat) (n : Nat) (t : Expr) :
    allIds (renameGets L n t) = allIds t := by
  induction t with
  | const i v => rfl
  | getLocal i idx => by_cases h : i ∈ L <;> simp [renameGets, allIds, h]
  | setLocal i idx v ih => simp [renameGets, allIds, ih]
  | seq i a b iha ihb => simp [renameGets, allIds, iha, ihb]
  | iff i c t f ihc iht ihf => simp [renameGets, allIds, ihc, iht, ihf]

theorem isSub_refl (t : Expr) : isSub t t = true := by
  cases t <;> simp [isSub]

theorem isSub_renameGets (L : List Nat) (n : Nat) (s t : Expr)
    (h : isSub s t = true) : isSub (renameGets L n s) (renameGets L n t) = true := by
  induction t with
  | const i v =>
      have hs : s = .const i v := by simpa [isSub] using h
      subst hs; exact isSub_refl _
  | getLocal i idx =>
      have hs : s = .getLocal i idx := by simpa [isSub] using h
      subst hs; exact isSub_refl _
  | setLocal i idx v ih =>
      rw [isSub, Bool.or_eq_true, beq_iff_eq] at h
      rcases h with h | h
      · subst h; exact isSub_refl _
      · simp [renameGets, isSub, ih h]
  | seq i a b iha ihb =>
      rw [isSub, Bool.or_eq_true, Bool.or_eq_true, beq_iff_eq] at h
      rcases h with (h | h) | h
      · subst h; exact isSub_refl _
      · simp [renameGets, isSub, iha h]
      · simp [renameGets, isSub, ihb h]
  | iff i c t f ihc iht ihf =>
      rw [isSub, Bool.or_eq_true, Bool.or_eq_true, Bool.or_eq_true, beq_iff_eq] at h
      rcases h with ((h | h) | h) | h
      · subst h; exact isSub_refl _
      · simp [renameGets, isSub, ihc h]
      · simp [renameGets, isSub, iht h]
      · simp [renameGets, isSub, ihf h]



theorem unwrapAll_cons (c : Copy) (cs : List Copy) (t : Expr) :
    unwrapAll (c :: cs) t = unwrapAll cs (unwrap c.copyId t) := rfl

theorem renames_cons (g : LocalGraph) (c : Copy) (cs : List Copy) (t : Expr) :
    renames g (c :: cs) t
      = renames g cs
          (if eligible g c then renameGets (g.setInfluences c.trivId) c.destIdx t else t) :=
  rfl

theorem optimizeCopies_cons (g : LocalGraph) (c : Copy) (cs : List Copy) (t : Expr) :
    optimizeCopies g (c :: cs) t = optimizeCopies g cs (processCopy g t c) := rfl

theorem processCopy_eq (g : LocalGraph) (t : Expr) (c : Copy) :
    processCopy g t c
      = unwrap c.copyId
          (if eligible g c then renameGets (g.setInfluences c.trivId) c.destIdx t else t) :=
  rfl

theorem unwrapAll_renameGets (cs : List Copy) (L : List Nat) (n : Nat) (t : Expr) :
    unwrapAll cs (renameGets L n t) = renameGets L n (unwrapAll cs t) := by
  induction cs generalizing t with
  | nil => rfl
  | cons c cs ih => rw [unwrapAll_cons, unwrapAll_cons, unwrap_renameGets, ih]

/-- Factorization of the optimizer loop: processing the copies in order is
the same as first removing every copy's instrumentation and then applying,
in recorded order, the renames of the copies that are eligible against the
single snapshot `g`.  Every decision in the loop depends only on `g`. -/
theorem optimizeCopies_factor (g : LocalGraph) (cs : List Copy) (t : Expr) :
    optimizeCopies g cs t = renames g cs (unwrapAll cs t) := by
  induction cs generalizing t with
  | nil => rfl
  | cons c cs ih =>
      rw [optimizeCopies_cons, ih, unwrapAll_cons, renames_cons, processCopy_eq]
      refine congrArg (renames g cs) ?_
      by_cases h : eligible g c
      · rw [if_pos h, if_pos h, unwrap_renameGets, unwrapAll_renameGets]
      · rw [if_neg h, if_neg h]

/-- Final slot index of a read, as a function of its original index: the
fold of the rename decisions the loop takes for it. -/
def finalIdxUpd (g : LocalGraph) (r : Nat) (cs : List Copy) (o : Nat) : Nat :=
  cs.foldl
    (fun acc c =>
      if eligible g c = true ∧ r ∈ g.setInfluences c.trivId then c.destIdx else acc) o

theorem finalIdxUpd_cons (g : LocalGraph) (r : Nat) (c : Copy) (cs : List Copy) (o : Nat) :
    finalIdxUpd g r (c :: cs) o
      = finalIdxUpd g r cs
          (if eligible g c = true ∧ r ∈ g.setInfluences c.trivId then c.destIdx else o) :=
  rfl

theorem lookupGet_processCopy (g : LocalGraph) (t : Expr) (c : Copy) (r : Nat) :
    lookupGet (processCopy g t c) r
      = (lookupGet t r).map fun o =>
          if eligible g c = true ∧ r ∈ g.setInfluences c.trivId then c.destIdx else o := by
  rw [processCopy_eq, lookupGet_unwrap]
  by_cases h : eligible g c
  · rw [if_pos h, lookupGet_renameGets]
    cases lookupGet t r with
    | none => rfl
    | some o => simp [h]
  · rw [if_neg h]
    cases lookupGet t r with
    | none => rfl
    | some o => simp [h]

theorem lookupGet_optimizeCopies (g : LocalGraph) (cs : List Copy) (t : Expr) (r : Nat) :
    lookupGet (optimizeCopies g cs t) r
      = (lookupGet t r).map (finalIdxUpd g r cs) := by
  induction cs generalizing t with
  | nil => cases h : lookupGet t r <;> simp [optimizeCopies, finalIdxUpd, h]
  | cons c cs ih =>
      rw [optimizeCopies_cons, ih, lookupGet_processCopy, Option.map_map]
      cases h : lookupGet t r <;> simp [finalIdxUpd]

theorem finalIdxUpd_of_not (g : LocalGraph) (r : Nat) :
    ∀ (cs : List Copy) (o : Nat),
      (∀ c ∈ cs, ¬(eligible g c = true ∧ r ∈ g.setInfluences c.trivId)) →
      finalIdxUpd g r cs o = o := by
  intro cs
  induction cs with
  | nil => intro o _; rfl
  | cons c cs ih =>
      intro o h
      rw [finalIdxUpd_cons, if_neg (h c (List.mem_cons_self c cs))]
      exact ih o fun c' hc' => h c' (List.mem_cons_of_mem c hc')

theorem finalIdxUpd_of_trigger (g : LocalGraph) (r : Nat) :
    ∀ (cs : List Copy) (o d : Nat),
      (∀ c ∈ cs, eligible g c = true → r ∈ g.setInfluences c.trivId → c.destIdx = d) →
      (∃ c ∈ cs, eligible g c = true ∧ r ∈ g.setInfluences c.trivId) →
      finalIdxUpd g r cs o = d := by
  intro cs
  induction cs with
  | nil =>
      intro o d _ hex
      simp at hex
  | cons c cs ih =>
      intro o d hall hex
      rw [finalIdxUpd_cons]
      by_cases h : eligible g c = true ∧ r ∈ g.setInfluences c.trivId
      · rw [if_pos h]
        have hd : c.destIdx = d := hall c (List.mem_cons_self c cs) h.1 h.2
        by_cases hex2 : ∃ c' ∈ cs, eligible g c' = true ∧ r ∈ g.setInfluences c'.trivId
        · exact ih _ d (fun c' hc' => hall c' (List.mem_cons_of_mem c hc')) hex2
        · push_neg at hex2
          rw [finalIdxUpd_of_not g r cs _
            (fun c' hc' hcon => absurd hcon.2 (hex2 c' hc' hcon.1))]
          exact hd
      · rw [if_neg h]
        rcases hex with ⟨c', hc', htr⟩
        rcases List.mem_cons.mp hc' with rfl | hc2
        · exact absurd htr h
        · exact ih _ d (fun c'' hc'' => hall c'' (List.mem_cons_of_mem c hc'')) ⟨c', hc2, htr⟩

theorem eligible_iff (g : LocalGraph) (c : Copy) :
    eligible g c = true ↔ ∀ r ∈ g.setInfluences c.trivId, (g.getSetses r).length = 1 := by
  simp [eligible, List.all_eq_true]

theorem mem_of_length_one {α : Type} {l : List α} {a b : α}
    (h : l.length = 1) (ha : a ∈ l) (hb : b ∈ l) : a = b := by
  match l, h with
  | [x], _ =>
      rw [List.mem_singleton] at ha hb
      rw [ha, hb]

theorem eq_singleton_of_length_one {α : Type} {l : List α} {a : α}
    (h : l.length = 1) (ha : a ∈ l) : l = [a] := by
  match l, h with
  | [x], _ =>
      rw [List.mem_singleton] at ha
      rw [ha]

/-- Key uniqueness fact: under the graph contract, a read influenced by two
recorded copies' self-writes such that one of them is eligible forces the two
copies to be the same copy (the eligible one's singleton reaching-definition
set contains both trivial self-writes). -/
theorem trigger_unique (g : LocalGraph) (t : Expr) (cs : List Copy)
    (hc : InflContract g t cs) (hnd : (cs.map Copy.trivId).Nodup)
    {c1 c2 : Copy} (h1 : c1 ∈ cs) (h2 : c2 ∈ cs) {r : Nat}
    (hr1 : r ∈ g.setInfluences c1.trivId) (hr2 : r ∈ g.setInfluences c2.trivId)
    (hel2 : eligible g c2 = true) : c1 = c2 := by
  have m1 : some c1.trivId ∈ g.getSetses r := (hc c1 h1 r hr1).2
  have m2 : some c2.trivId ∈ g.getSetses r := (hc c2 h2 r hr2).2
  have hlen : (g.getSetses r).length = 1 := (eligible_iff g c2).mp hel2 r hr2
  have h12 : some c1.trivId = some c2.trivId := mem_of_length_one hlen m1 m2
  exact List.inj_on_of_nodup_map hnd h1 h2 (Option.some.inj h12)


theorem instrument_set_get (f i idx gi gidx : Nat) :
    instrument f (.setLocal i idx (.getLocal gi gidx))
      = if gidx ≠ idx then
          (.setLocal i idx (.setLocal f gidx (.getLocal gi gidx)),
            [⟨i, idx, f, gidx⟩], f + 1)
        else (.setLocal i idx (.getLocal gi gidx), [], f) := rfl

theorem instrument_set_const (f i idx a : Nat) (x : Int) :
    instrument f (.setLocal i idx (.const a x))
      = (.setLocal i idx (.const a x), [], f) := rfl

theorem instrument_set_set (f i idx a b : Nat) (w : Expr) :
    instrument f (.setLocal i idx (.setLocal a b w))
      = (.setLocal i idx (instrument f (.setLocal a b w)).1,
          (instrument f (.setLocal a b w)).2.1, (instrument f (.setLocal a b w)).2.2) := rfl

theorem instrument_set_seq (f i idx a : Nat) (x y : Expr) :
    instrument f (.setLocal i idx (.seq a x y))
      = (.setLocal i idx (instrument f (.seq a x y)).1,
          (instrument f (.seq a x y)).2.1, (instrument f (.seq a x y)).2.2) := rfl

theorem instrument_set_iff (f i idx a : Nat) (x y z : Expr) :
    instrument f (.setLocal i idx (.iff a x y z))
      = (.setLocal i idx (instrument f (.iff a x y z)).1,
          (instrument f (.iff a x y z)).2.1, (instrument f (.iff a x y z)).2.2) := rfl

theorem instrument_seq_eq (f i : Nat) (a b : Expr) :
    instrument f (.seq i a b)
      = (.seq i (instrument f a).1 (instrument (instrument f a).2.2 b).1,
          (instrument f a).2.1 ++ (instrument (instrument f a).2.2 b).2.1,
          (instrument (instrument f a).2.2 b).2.2) := rfl

theorem instrument_iff_eq (f i : Nat) (c t u : Expr) :
    instrument f (.iff i c t u)
      = (.iff i (instrument f c).1 (instrument (instrument f c).2.2 t).1
            (instrument (instrument (instrument f c).2.2 t).2.2 u).1,
          (instrument f c).2.1 ++ (instrument (instrument f c).2.2 t).2.1
            ++ (instrument (instrument (instrument f c).2.2 t).2.2 u).2.1,
          (instrument (instrument (instrument f c).2.2 t).2.2 u).2.2) := rfl

/-- Gluing lemma for consecutive id ranges. -/
theorem range'_glue (s m n : Nat) :
    List.range' s m ++ List.range' (s + m) n = List.range' s (m + n) := by
  have h := List.range'_append s m n 1
  rw [one_mul] at h
  rw [h, Nat.add_comm]

/-- Accounting of the fresh ids the instrumentation allocates: the trivial
self-writes of the recorded copies receive exactly the consecutive ids
starting at `fresh`, and the returned counter is `fresh` plus the number of
copies. -/
theorem instrument_trivIds (e : Expr) : ∀ f : Nat,
    (instrument f e).2.1.map Copy.trivId
        = List.range' f (instrument f e).2.1.length
    ∧ (instrument f e).2.2 = f + (instrument f e).2.1.length := by
  induction e with
  | const i v => intro f; simp [instrument]
  | getLocal i x => intro f; simp [instrument]
  | setLocal i idx v ih =>
      intro f
      cases v with
      | getLocal gi gidx =>
          rw [instrument_set_get]
          by_cases h : gidx ≠ idx
          · rw [if_pos h]; simp [List.range']
          · rw [if_neg h]; simp
      | const a x => rw [instrument_set_const]; simp
      | setLocal a b w => rw [instrument_set_set]; simpa using ih f
      | seq a x y => rw [instrument_set_seq]; simpa using ih f
      | iff a x y z => rw [instrument_set_iff]; simpa using ih f
  | seq i a b iha ihb =>
      intro f
      rw [instrument_seq_eq]
      obtain ⟨ha1, ha2⟩ := iha f
      obtain ⟨hb1, hb2⟩ := ihb (instrument f a).2.2
      refine ⟨?_, ?_⟩
      · dsimp only
        rw [List.map_append, List.length_append, ha1, hb1, ha2]
        exact range'_glue f _ _
      · dsimp only
        rw [List.length_append, hb2, ha2]
        omega
  | iff i c t u ihc iht ihu =>
      intro f
      rw [instrument_iff_eq]
      obtain ⟨hc1, hc2⟩ := ihc f
      obtain ⟨ht1, ht2⟩ := iht (instrument f c).2.2
      obtain ⟨hu1, hu2⟩ := ihu (instrument (instrument f c).2.2 t).2.2
      refine ⟨?_, ?_⟩
      · dsimp only
        rw [List.map_append, List.map_append, List.length_append, List.length_append,
          hc1, ht1, hu1, ht2, hc2]
        generalize (instrument f c).2.1.length = A
        generalize (instrument (f + A) t).2.1.length = B
        rw [range'_glue f A B, show f + A + B = f + (A + B) from Nat.add_assoc f A B]
        exact range'_glue f (A + B) _
      · dsimp only
        rw [List.length_append, List.length_append, hu2, ht2, hc2]
        omega

theorem mem_le_foldr_max (l : List Nat) (i : Nat) (h : i ∈ l) : i ≤ l.foldr max 0 := by
  induction l with
  | nil => simp at h
  | cons x xs ih =>
      rcases List.mem_cons.mp h with rfl | h2
      · exact le_max_left _ _
      · exact le_trans (ih h2) (le_max_right _ _)

/-- Every id of a tree is bounded by `maxId`. -/
theorem le_maxId (e : Expr) (i : Nat) (h : i ∈ allIds e) : i ≤ maxId e :=
  mem_le_foldr_max (allIds e) i h

theorem setIds_sub_allIds (e : Expr) (x : Nat) (h : x ∈ setIds e) : x ∈ allIds e := by
  induction e with
  | const i v => simp [setIds] at h
  | getLocal i idx => simp [setIds] at h
  | setLocal i idx v ih =>
      simp only [setIds] at h
      simp only [allIds, List.mem_cons]
      rcases List.mem_cons.mp h with rfl | h2
      · exact Or.inl rfl
      · exact Or.inr (ih h2)
  | seq i a b iha ihb =>
      simp only [setIds, List.mem_append] at h
      simp only [allIds, List.mem_cons, List.mem_append]
      rcases h with h | h
      · exact Or.inr (Or.inl (iha h))
      · exact Or.inr (Or.inr (ihb h))
  | iff i c t u ihc iht ihu =>
      simp only [setIds, List.mem_append] at h
      simp only [allIds, List.mem_cons, List.mem_append]
      rcases h with (h | h) | h
      · exact Or.inr (Or.inl (Or.inl (ihc h)))
      · exact Or.inr (Or.inl (Or.inr (iht h)))
      · exact Or.inr (Or.inr (ihu h))


theorem instrument_fresh_le (e : Expr) (f : Nat) : f ≤ (instrument f e).2.2 := by
  have h := (instrument_trivIds e f).2
  omega

/-- Every recorded copy's outer node is a `SetLocal` of the input tree. -/
theorem instrument_copyId_mem (e : Expr) : ∀ f : Nat,
    ∀ c ∈ (instrument f e).2.1, c.copyId ∈ setIds e := by
  induction e with
  | const i v => intro f c hc; simp [instrument] at hc
  | getLocal i x => intro f c hc; simp [instrument] at hc
  | setLocal i idx v ih =>
      intro f c hc
      cases v with
      | getLocal gi gidx =>
          rw [instrument_set_get] at hc
          by_cases h : gidx ≠ idx
          · rw [if_pos h] at hc
            dsimp only at hc
            rcases List.mem_singleton.mp hc with rfl
            exact List.mem_cons_self _ _
          · rw [if_neg h] at hc; simp at hc
      | const a x => rw [instrument_set_const] at hc; simp at hc
      | setLocal a b w =>
          rw [instrument_set_set] at hc; dsimp only at hc
          exact List.mem_cons_of_mem _ (ih f c hc)
      | seq a x y =>
          rw [instrument_set_seq] at hc; dsimp only at hc
          exact List.mem_cons_of_mem _ (ih f c hc)
      | iff a x y z =>
          rw [instrument_set_iff] at hc; dsimp only at hc
          exact List.mem_cons_of_mem _ (ih f c hc)
  | seq i a b iha ihb =>
      intro f c hc
      rw [instrument_seq_eq] at hc; dsimp only at hc
      rcases List.mem_append.mp hc with h | h
      · exact List.mem_append.mpr (Or.inl (iha f c h))
      · exact List.mem_append.mpr (Or.inr (ihb _ c h))
  | iff i c t u ihc iht ihu =>
      intro f c0 hc
      rw [instrument_iff_eq] at hc; dsimp only at hc
      rcases List.mem_append.mp hc with h | h
      · rcases List.mem_append.mp h with h2 | h2
        · exact List.mem_append.mpr (Or.inl (List.mem_append.mpr (Or.inl (ihc f c0 h2))))
        · exact List.mem_append.mpr (Or.inl (List.mem_append.mpr (Or.inr (iht _ c0 h2))))
      · exact List.mem_append.mpr (Or.inr (ihu _ c0 h))

/-- A `SetLocal` id of the instrumented tree is an original `SetLocal` id or
one of the freshly allocated trivial ids. -/
theorem instrument_setIds_mem (e : Expr) : ∀ f x,
    x ∈ setIds (instrument f e).1 →
    x ∈ setIds e ∨ (f ≤ x ∧ x < (instrument f e).2.2) := by
  induction e with
  | const i v => intro f x hx; exact Or.inl hx
  | getLocal iexp x => intro f x hx; exact Or.inl hx
  | setLocal i idx v ih =>
      intro f x hx
      cases v with
      | getLocal gi gidx =>
          rw [instrument_set_get] at hx ⊢
          by_cases h : gidx ≠ idx
          · rw [if_pos h] at hx ⊢
            dsimp only at hx ⊢
            simp only [setIds, List.mem_cons] at hx
            rcases hx with rfl | rfl | hx
            · exact Or.inl (List.mem_cons_self _ _)
            · exact Or.inr (by omega)
            · simp [setIds] at hx
          · rw [if_neg h] at hx ⊢
            exact Or.inl hx
      | const a y =>
          rw [instrument_set_const] at hx ⊢
          exact Or.inl hx
      | setLocal a b w =>
          rw [instrument_set_set] at hx ⊢
          dsimp only at hx ⊢
          rcases List.mem_cons.mp hx with rfl | hx
          · exact Or.inl (List.mem_cons_self _ _)
          · rcases ih f x hx with h2 | h2
            · exact Or.inl (List.mem_cons_of_mem _ h2)
            · exact Or.inr h2
      | seq a y z =>
          rw [instrument_set_seq] at hx ⊢
          dsimp only at hx ⊢
          rcases List.mem_cons.mp hx with rfl | hx
          · exact Or.inl (List.mem_cons_self _ _)
          · rcases ih f x hx with h2 | h2
            · exact Or.inl (List.mem_cons_of_mem _ h2)
            · exact Or.inr h2
      | iff a y z w =>
          rw [instrument_set_iff] at hx ⊢
          dsimp only at hx ⊢
          rcases List.mem_cons.mp hx with rfl | hx
          · exact Or.inl (List.mem_cons_self _ _)
          · rcases ih f x hx with h2 | h2
            · exact Or.inl (List.mem_cons_of_mem _ h2)
            · exact Or.inr h2
  | seq i a b iha ihb =>
      intro f x hx
      rw [instrument_seq_eq] at hx ⊢
      dsimp only at hx ⊢
      simp only [setIds, List.mem_append] at hx ⊢
      have hab := instrument_fresh_le a f
      have hbc := instrument_fresh_le b (instrument f a).2.2
      rcases hx with hx | hx
      · rcases iha f x hx with h2 | h2
        · exact Or.inl (Or.inl h2)
        · exact Or.inr (by omega)
      · rcases ihb (instrument f a).2.2 x hx with h2 | h2
        · exact Or.inl (Or.inr h2)
        · exact Or.inr (by omega)
  | iff i c t u ihc iht ihu =>
      intro f x hx
      rw [instrument_iff_eq] at hx ⊢
      dsimp only at hx ⊢
      simp only [setIds, List.mem_append] at hx ⊢
      have h1 := instrument_fresh_le c f
      have h2 := instrument_fresh_le t (instrument f c).2.2
      have h3 := instrument_fresh_le u (instrument (instrument f c).2.2 t).2.2
      rcases hx with (hx | hx) | hx
      · rcases ihc f x hx with h4 | h4
        · exact Or.inl (Or.inl (Or.inl h4))
        · exact Or.inr (by omega)
      · rcases iht (instrument f c).2.2 x hx with h4 | h4
        · exact Or.inl (Or.inl (Or.inr h4))
        · exact Or.inr (by omega)
      · rcases ihu (instrument (instrument f c).2.2 t).2.2 x hx with h4 | h4
        · exact Or.inl (Or.inr h4)
        · exact Or.inr (by omega)

/-- The instrumentation leaves every read in place: looking a read up by id
gives the same slot before and after. -/
theorem instrument_lookupGet (e : Expr) : ∀ f r,
    lookupGet (instrument f e).1 r = lookupGet e r := by
  induction e with
  | const i v => intro f r; rfl
  | getLocal i x => intro f r; rfl
  | setLocal i idx v ih =>
      intro f r
      cases v with
      | getLocal gi gidx =>
          rw [instrument_set_get]
          by_cases h : gidx ≠ idx
          · rw [if_pos h]; simp [lookupGet]
          · rw [if_neg h]
      | const a x => rw [instrument_set_const]
      | setLocal a b w =>
          rw [instrument_set_set]; dsimp only
          simp only [lookupGet]; exact ih f r
      | seq a x y =>
          rw [instrument_set_seq]; dsimp only
          simp only [lookupGet]; exact ih f r
      | iff a x y z =>
          rw [instrument_set_iff]; dsimp only
          simp only [lookupGet]; exact ih f r
  | seq i a b iha ihb =>
      intro f r
      rw [instrument_seq_eq]; dsimp only
      simp only [lookupGet, iha, ihb]
  | iff i c t u ihc iht ihu =>
      intro f r
      rw [instrument_iff_eq]; dsimp only
      simp only [lookupGet, ihc, iht, ihu]

/-- The copies the walk records are exactly the claim-side description: the
copy-shaped writes, in traversal encounter order. -/
theorem instrument_copySpec (e : Expr) : ∀ f,
    (instrument f e).2.1.map (fun c => (c.copyId, c.destIdx, c.srcIdx)) = copySpec e := by
  induction e with
  | const i v => intro f; rfl
  | getLocal i x => intro f; rfl
  | setLocal i idx v ih =>
      intro f
      cases v with
      | getLocal gi gidx =>
          rw [instrument_set_get]
          by_cases h : gidx ≠ idx
          · rw [if_pos h]; simp [copySpec, h]
          · rw [if_neg h]; simp [copySpec, h]
      | const a x => rw [instrument_set_const]; simp [copySpec]
      | setLocal a b w =>
          rw [instrument_set_set]; dsimp only
          simp only [copySpec, List.append_nil]; exact ih f
      | seq a x y =>
          rw [instrument_set_seq]; dsimp only
          simp only [copySpec, List.append_nil]; exact ih f
      | iff a x y z =>
          rw [instrument_set_iff]; dsimp only
          simp only [copySpec, List.append_nil]; exact ih f
  | seq i a b iha ihb =>
      intro f
      rw [instrument_seq_eq]; dsimp only
      simp only [copySpec, List.map_append, iha, ihb]
  | iff i c t u ihc iht ihu =>
      intro f
      rw [instrument_iff_eq]; dsimp only
      simp only [copySpec, List.map_append, ihc, iht, ihu]


theorem isSub_set (s : Expr) (i idx : Nat) (v : Expr) (h : isSub s v = true) :
    isSub s (.setLocal i idx v) = true := by
  simp [isSub, h]

theorem isSub_seq_l (s : Expr) (i : Nat) (a b : Expr) (h : isSub s a = true) :
    isSub s (.seq i a b) = true := by
  simp [isSub, h]

theorem isSub_seq_r (s : Expr) (i : Nat) (a b : Expr) (h : isSub s b = true) :
    isSub s (.seq i a b) = true := by
  simp [isSub, h]

theorem isSub_iff_c (s : Expr) (i : Nat) (c t u : Expr) (h : isSub s c = true) :
    isSub s (.iff i c t u) = true := by
  simp [isSub, h]

theorem isSub_iff_t (s : Expr) (i : Nat) (c t u : Expr) (h : isSub s t = true) :
    isSub s (.iff i c t u) = true := by
  simp [isSub, h]

theorem isSub_iff_u (s : Expr) (i : Nat) (c t u : Expr) (h : isSub s u = true) :
    isSub s (.iff i c t u) = true := by
  simp [isSub, h]

/-- Shape of every recorded copy: its destination and source slot differ, and
for some read node id `gid`, the instrumented tree contains the wrapped write
`D := (S := read S)` where the input tree contains the plain copy
`D := read S`. -/
theorem instrument_shape (e : Expr) : ∀ f, ∀ c ∈ (instrument f e).2.1,
    c.destIdx ≠ c.srcIdx
    ∧ ∃ gid,
        isSub (.setLocal c.copyId c.destIdx
            (.setLocal c.trivId c.srcIdx (.getLocal gid c.srcIdx)))
          (instrument f e).1 = true
        ∧ isSub (.setLocal c.copyId c.destIdx (.getLocal gid c.srcIdx)) e = true := by
  induction e with
  | const i v => intro f c hc; simp [instrument] at hc
  | getLocal i x => intro f c hc; simp [instrument] at hc
  | setLocal i idx v ih =>
      intro f c hc
      cases v with
      | getLocal gi gidx =>
          rw [instrument_set_get] at hc ⊢
          by_cases h : gidx ≠ idx
          · rw [if_pos h] at hc ⊢
            dsimp only at hc ⊢
            rcases List.mem_singleton.mp hc with rfl
            exact ⟨Ne.symm h, gi, isSub_refl _, isSub_refl _⟩
          · rw [if_neg h] at hc; simp at hc
      | const a x => rw [instrument_set_const] at hc; simp at hc
      | setLocal a b w =>
          rw [instrument_set_set] at hc ⊢
          dsimp only at hc ⊢
          obtain ⟨hne, gid, h1, h2⟩ := ih f c hc
          exact ⟨hne, gid, isSub_set _ _ _ _ h1, isSub_set _ _ _ _ h2⟩
      | seq a x y =>
          rw [instrument_set_seq] at hc ⊢
          dsimp only at hc ⊢
          obtain ⟨hne, gid, h1, h2⟩ := ih f c hc
          exact ⟨hne, gid, isSub_set _ _ _ _ h1, isSub_set _ _ _ _ h2⟩
      | iff a x y z =>
          rw [instrument_set_iff] at hc ⊢
          dsimp only at hc ⊢
          obtain ⟨hne, gid, h1, h2⟩ := ih f c hc
          exact ⟨hne, gid, isSub_set _ _ _ _ h1, isSub_set _ _ _ _ h2⟩
  | seq i a b iha ihb =>
      intro f c hc
      rw [instrument_seq_eq] at hc ⊢
      dsimp only at hc ⊢
      rcases List.mem_append.mp hc with h | h
      · obtain ⟨hne, gid, h1, h2⟩ := iha f c h
        exact ⟨hne, gid, isSub_seq_l _ _ _ _ h1, isSub_seq_l _ _ _ _ h2⟩
      · obtain ⟨hne, gid, h1, h2⟩ := ihb _ c h
        exact ⟨hne, gid, isSub_seq_r _ _ _ _ h1, isSub_seq_r _ _ _ _ h2⟩
  | iff i c t u ihc iht ihu =>
      intro f c0 hc
      rw [instrument_iff_eq] at hc ⊢
      dsimp only at hc ⊢
      rcases List.mem_append.mp hc with h | h
      · rcases List.mem_append.mp h with h2 | h2
        · obtain ⟨hne, gid, ha, hb⟩ := ihc f c0 h2
          exact ⟨hne, gid, isSub_iff_c _ _ _ _ _ ha, isSub_iff_c _ _ _ _ _ hb⟩
        · obtain ⟨hne, gid, ha, hb⟩ := iht _ c0 h2
          exact ⟨hne, gid, isSub_iff_t _ _ _ _ _ ha, isSub_iff_t _ _ _ _ _ hb⟩
      · obtain ⟨hne, gid, ha, hb⟩ := ihu _ c0 h
        exact ⟨hne, gid, isSub_iff_u _ _ _ _ _ ha, isSub_iff_u _ _ _ _ _ hb⟩

theorem unwrapAll_eq_of_disjoint (cs : List Copy) (t : Expr)
    (h : ∀ c ∈ cs, c.copyId ∉ setIds t) : unwrapAll cs t = t := by
  induction cs with
  | nil => rfl
  | cons c cs ih =>
      rw [unwrapAll_cons, unwrap_eq_of_not_mem _ _ (h c (List.mem_cons_self c cs))]
      exact ih fun c' hc' => h c' (List.mem_cons_of_mem c hc')

theorem unwrapAll_seq (cs : List Copy) : ∀ (i : Nat) (a b : Expr),
    unwrapAll cs (.seq i a b) = .seq i (unwrapAll cs a) (unwrapAll cs b) := by
  induction cs with
  | nil => intro i a b; rfl
  | cons c cs ih =>
      intro i a b
      rw [unwrapAll_cons, show unwrap c.copyId (.seq i a b)
            = .seq i (unwrap c.copyId a) (unwrap c.copyId b) from rfl, ih]
      rfl

theorem unwrapAll_iff (cs : List Copy) : ∀ (i : Nat) (c t u : Expr),
    unwrapAll cs (.iff i c t u)
      = .iff i (unwrapAll cs c) (unwrapAll cs t) (unwrapAll cs u) := by
  induction cs with
  | nil => intro i c t u; rfl
  | cons c0 cs ih =>
      intro i c t u
      rw [unwrapAll_cons, show unwrap c0.copyId (.iff i c t u)
            = .iff i (unwrap c0.copyId c) (unwrap c0.copyId t) (unwrap c0.copyId u) from rfl,
        ih]
      rfl

theorem unwrapAll_setLocal (cs : List Copy) : ∀ (i idx : Nat) (v : Expr),
    (∀ c ∈ cs, c.copyId ≠ i) →
    unwrapAll cs (.setLocal i idx v) = .setLocal i idx (unwrapAll cs v) := by
  induction cs with
  | nil => intro i idx v _; rfl
  | cons c cs ih =>
      intro i idx v h
      rw [unwrapAll_cons, show unwrap c.copyId (.setLocal i idx v)
            = .setLocal i idx (unwrap c.copyId v) from by
          rw [unwrap, if_neg (fun he => (h c (List.mem_cons_self c cs)) he.symm)]]
      exact ih i idx _ fun c' hc' => h c' (List.mem_cons_of_mem c hc')

theorem unwrapAll_append (cs1 cs2 : List Copy) (t : Expr) :
    unwrapAll (cs1 ++ cs2) t = unwrapAll cs2 (unwrapAll cs1 t) :=
  List.foldl_append _ _ _ _

/-- Removing every recorded copy's instrumentation recovers the input tree
exactly (the wrapping is the only change the walk makes). -/
theorem instrument_unwrapAll (e : Expr) : ∀ f : Nat,
    (setIds e).Nodup → (∀ x ∈ setIds e, x < f) →
    unwrapAll (instrument f e).2.1 (instrument f e).1 = e := by
  induction e with
  | const i v => intro f _ _; rfl
  | getLocal i x => intro f _ _; rfl
  | setLocal i idx v ih =>
      intro f hnd hb
      have hni : i ∉ setIds v := (List.nodup_cons.mp hnd).1
      have hndv : (setIds v).Nodup := (List.nodup_cons.mp hnd).2
      have hbv : ∀ x ∈ setIds v, x < f := fun x hx => hb x (List.mem_cons_of_mem _ hx)
      cases v with
      | getLocal gi gidx =>
          rw [instrument_set_get]
          by_cases h : gidx ≠ idx
          · rw [if_pos h]
            dsimp only
            rw [show unwrapAll [⟨i, idx, f, gidx⟩]
                  (.setLocal i idx (.setLocal f gidx (.getLocal gi gidx)))
                = unwrap i (.setLocal i idx (.setLocal f gidx (.getLocal gi gidx))) from rfl]
            rw [unwrap, if_pos rfl]
            rfl
          · rw [if_neg h]; rfl
      | const a x => rw [instrument_set_const]; rfl
      | setLocal a b w =>
          rw [instrument_set_set]
          dsimp only
          rw [unwrapAll_setLocal _ i idx _
            (fun c hc => fun he => hni (he ▸ instrument_copyId_mem _ f c hc))]
          rw [ih f hndv hbv]
      | seq a x y =>
          rw [instrument_set_seq]
          dsimp only
          rw [unwrapAll_setLocal _ i idx _
            (fun c hc => fun he => hni (he ▸ instrument_copyId_mem _ f c hc))]
          rw [ih f hndv hbv]
      | iff a x y z =>
          rw [instrument_set_iff]
          dsimp only
          rw [unwrapAll_setLocal _ i idx _
            (fun c hc => fun he => hni (he ▸ instrument_copyId_mem _ f c hc))]
          rw [ih f hndv hbv]
  | seq i a b iha ihb =>
      intro f hnd hb
      rw [show setIds (.seq i a b) = setIds a ++ setIds b from rfl] at hnd hb
      obtain ⟨hnda, hndb, hdisj⟩ := List.nodup_append.mp hnd
      have hba : ∀ x ∈ setIds a, x < f := fun x hx => hb x (List.mem_append.mpr (Or.inl hx))
      have hbb : ∀ x ∈ setIds b, x < f := fun x hx => hb x (List.mem_append.mpr (Or.inr hx))
      have hf1 : f ≤ (instrument f a).2.2 := instrument_fresh_le a f
      rw [instrument_seq_eq]
      dsimp only
      rw [unwrapAll_seq]
      simp only [unwrapAll_append]
      have e1 : unwrapAll (instrument f a).2.1 (instrument f a).1 = a := iha f hnda hba
      have e2 : unwrapAll (instrument (instrument f a).2.2 b).2.1 a = a := by
        refine unwrapAll_eq_of_disjoint _ _ fun c hc hmem => ?_
        exact hdisj hmem (instrument_copyId_mem b _ c hc)
      have e3 : unwrapAll (instrument f a).2.1 (instrument (instrument f a).2.2 b).1
          = (instrument (instrument f a).2.2 b).1 := by
        refine unwrapAll_eq_of_disjoint _ _ fun c hc hmem => ?_
        have hlt : c.copyId < f := hba _ (instrument_copyId_mem a f c hc)
        rcases instrument_setIds_mem b _ _ hmem with h2 | h2
        · exact hdisj (instrument_copyId_mem a f c hc) h2
        · omega
      have e4 : unwrapAll (instrument (instrument f a).2.2 b).2.1
          (instrument (instrument f a).2.2 b).1 = b :=
        ihb _ hndb fun x hx => lt_of_lt_of_le (hbb x hx) hf1
      rw [e1, e2, e3, e4]
  | iff i c t u ihc iht ihu =>
      intro f hnd hb
      rw [show setIds (.iff i c t u) = setIds c ++ setIds t ++ setIds u from rfl] at hnd hb
      obtain ⟨hndct, hndu, hdisj2⟩ := List.nodup_append.mp hnd
      obtain ⟨hndc, hndt, hdisj1⟩ := List.nodup_append.mp hndct
      have hbc : ∀ x ∈ setIds c, x < f := fun x hx =>
        hb x (List.mem_append.mpr (Or.inl (List.mem_append.mpr (Or.inl hx))))
      have hbt : ∀ x ∈ setIds t, x < f := fun x hx =>
        hb x (List.mem_append.mpr (Or.inl (List.mem_append.mpr (Or.inr hx))))
      have hbu : ∀ x ∈ setIds u, x < f := fun x hx =>
        hb x (List.mem_append.mpr (Or.inr hx))
      have hf1 : f ≤ (instrument f c).2.2 := instrument_fresh_le c f
      have hf2 : (instrument f c).2.2 ≤ (instrument (instrument f c).2.2 t).2.2 :=
        instrument_fresh_le t _
      rw [instrument_iff_eq]
      dsimp only
      rw [unwrapAll_iff]
      simp only [unwrapAll_append]
      have ec1 : unwrapAll (instrument f c).2.1 (instrument f c).1 = c := ihc f hndc hbc
      have ec2 : unwrapAll (instrument (instrument f c).2.2 t).2.1 c = c := by
        refine unwrapAll_eq_of_disjoint _ _ fun c0 hc0 hmem => ?_
        exact hdisj1 hmem (instrument_copyId_mem t _ c0 hc0)
      have ec3 : unwrapAll (instrument (instrument (instrument f c).2.2 t).2.2 u).2.1 c
          = c := by
        refine unwrapAll_eq_of_disjoint _ _ fun c0 hc0 hmem => ?_
        exact hdisj2 (List.mem_append.mpr (Or.inl hmem)) (instrument_copyId_mem u _ c0 hc0)
      have et1 : unwrapAll (instrument f c).2.1 (instrument (instrument f c).2.2 t).1
          = (instrument (instrument f c).2.2 t).1 := by
        refine unwrapAll_eq_of_disjoint _ _ fun c0 hc0 hmem => ?_
        have hlt : c0.copyId < f := hbc _ (instrument_copyId_mem c f c0 hc0)
        rcases instrument_setIds_mem t _ _ hmem with h2 | h2
        · exact hdisj1 (instrument_copyId_mem c f c0 hc0) h2
        · omega
      have et2 : unwrapAll (instrument (instrument f c).2.2 t).2.1
          (instrument (instrument f c).2.2 t).1 = t :=
        iht _ hndt fun x hx => lt_of_lt_of_le (hbt x hx) hf1
      have et3 : unwrapAll (instrument (instrument (instrument f c).2.2 t).2.2 u).2.1 t
          = t := by
        refine unwrapAll_eq_of_disjoint _ _ fun c0 hc0 hmem => ?_
        exact hdisj2 (List.mem_append.mpr (Or.inr hmem)) (instrument_copyId_mem u _ c0 hc0)
      have eu1 : unwrapAll (instrument f c).2.1
          (instrument (instrument (instrument f c).2.2 t).2.2 u).1
          = (instrument (instrument (instrument f c).2.2 t).2.2 u).1 := by
        refine unwrapAll_eq_of_disjoint _ _ fun c0 hc0 hmem => ?_
        have hlt : c0.copyId < f := hbc _ (instrument_copyId_mem c f c0 hc0)
        rcases instrument_setIds_mem u _ _ hmem with h2 | h2
        · exact hdisj2 (List.mem_append.mpr (Or.inl (instrument_copyId_mem c f c0 hc0))) h2
        · omega
      have eu2 : unwrapAll (instrument (instrument f c).2.2 t).2.1
          (instrument (instrument (instrument f c).2.2 t).2.2 u).1
          = (instrument (instrument (instrument f c).2.2 t).2.2 u).1 := by
        refine unwrapAll_eq_of_disjoint _ _ fun c0 hc0 hmem => ?_
        have hlt : c0.copyId < f :=
          hbt _ (instrument_copyId_mem t _ c0 hc0)
        rcases instrument_setIds_mem u _ _ hmem with h2 | h2
        · exact hdisj2 (List.mem_append.mpr
            (Or.inr (instrument_copyId_mem t _ c0 hc0))) h2
        · omega
      have eu3 : unwrapAll (instrument (instrument (instrument f c).2.2 t).2.2 u).2.1
          (instrument (instrument (instrument f c).2.2 t).2.2 u).1 = u :=
        ihu _ hndu fun x hx => lt_of_lt_of_le (lt_of_lt_of_le (hbu x hx) hf1) hf2
      rw [ec1, ec2, ec3, et1, et2, et3, eu1, eu2, eu3]

/-- On a tree without copy-shaped writes the walk does nothing: same tree, no
copies, no fresh ids consumed. -/
theorem instrument_of_not_hasCopy (e : Expr) : ∀ f : Nat,
    hasCopy e = false → instrument f e = (e, [], f) := by
  induction e with
  | const i v => intro f _; rfl
  | getLocal i x => intro f _; rfl
  | setLocal i idx v ih =>
      intro f h
      cases v with
      | getLocal gi gidx =>
          have h2 : ¬gidx ≠ idx := by simpa [hasCopy] using h
          rw [instrument_set_get, if_neg h2]
      | const a x => rw [instrument_set_const]
      | setLocal a b w =>
          rw [instrument_set_set, ih f h]
      | seq a x y =>
          rw [instrument_set_seq, ih f h]
      | iff a x y z =>
          rw [instrument_set_iff, ih f h]
  | seq i a b iha ihb =>
      intro f h
      rw [show hasCopy (.seq i a b) = (hasCopy a || hasCopy b) from rfl,
        Bool.or_eq_false_iff] at h
      rw [instrument_seq_eq, iha f h.1, ihb f h.2]
      rfl
  | iff i c t u ihc iht ihu =>
      intro f h
      rw [show hasCopy (.iff i c t u) = (hasCopy c || hasCopy t || hasCopy u) from rfl,
        Bool.or_eq_false_iff, Bool.or_eq_false_iff] at h
      rw [instrument_iff_eq, ihc f h.1.1, iht f h.1.2, ihu f h.2]
      rfl


/-- The trivial self-write ids of the recorded copies are pairwise distinct. -/
theorem passCopies_trivIds_nodup (e : Expr) :
    ((passCopies e).map Copy.trivId).Nodup := by
  have h := (instrument_trivIds e (maxId e + 1)).1
  have h2 : (passCopies e).map Copy.trivId
      = List.range' (maxId e + 1) (passCopies e).length := h
  rw [h2]
  exact List.nodup_range' _ _

theorem passCopies_nodup (e : Expr) : (passCopies e).Nodup :=
  (passCopies_trivIds_nodup e).of_map

theorem passCopies_trivId_ge (e : Expr) (c : Copy) (hc : c ∈ passCopies e) :
    maxId e + 1 ≤ c.trivId := by
  have h1 := (instrument_trivIds e (maxId e + 1)).1
  have h2 : c.trivId ∈ (passCopies e).map Copy.trivId := List.mem_map_of_mem _ hc
  have h3 : c.trivId ∈ List.range' (maxId e + 1) (passCopies e).length := by
    rw [show (passCopies e).map Copy.trivId
          = List.range' (maxId e + 1) (passCopies e).length from h1] at h2
    exact h2
  rcases List.mem_range'.mp h3 with ⟨k, hk, hkeq⟩
  omega

/-- Reads keep their identity through the whole pass: the final slot of the
read with id `r` is its input slot updated by the rename decisions. -/
theorem lookupGet_runPass (A : Expr → LocalGraph) (e : Expr) (r : Nat) :
    lookupGet (runPass A e) r
      = (lookupGet e r).map (finalIdxUpd (passGraph A e) r (passCopies e)) := by
  rw [show runPass A e
        = optimizeCopies (passGraph A e) (passCopies e) (instrumented e) from rfl,
    lookupGet_optimizeCopies,
    show lookupGet (instrumented e) r = lookupGet e r from instrument_lookupGet e _ r]

/-- The pass is the eligible renames applied to the input tree: the
instrumentation is wrapped and fully unwrapped again. -/
theorem runPass_renames (A : Expr → LocalGraph) (e : Expr)
    (hnd : (setIds e).Nodup) :
    runPass A e = renames (passGraph A e) (passCopies e) e := by
  rw [show runPass A e
        = optimizeCopies (passGraph A e) (passCopies e) (instrumented e) from rfl,
    optimizeCopies_factor]
  exact congrArg _ (instrument_unwrapAll e _ hnd fun x hx => by
    have := le_maxId e x (setIds_sub_allIds e x hx)
    omega)

theorem skeleton_renames (g : LocalGraph) (cs : List Copy) :
    ∀ t, skeleton (renames g cs t) = skeleton t := by
  induction cs with
  | nil => intro t; rfl
  | cons c cs ih =>
      intro t
      rw [renames_cons]
      by_cases h : eligible g c
      · rw [if_pos h, ih, skeleton_renameGets]
      · rw [if_neg h, ih]

theorem allIds_renames (g : LocalGraph) (cs : List Copy) :
    ∀ t, allIds (renames g cs t) = allIds t := by
  induction cs with
  | nil => intro t; rfl
  | cons c cs ih =>
      intro t
      rw [renames_cons]
      by_cases h : eligible g c
      · rw [if_pos h, ih, allIds_renameGets]
      · rw [if_neg h, ih]

/-- A plain-copy subterm survives the rename phase, with only the slot of its
inner read possibly updated. -/
theorem renames_plainCopy (g : LocalGraph) (cs : List Copy) (a b gid : Nat) :
    ∀ (t : Expr) (j : Nat),
      isSub (.setLocal a b (.getLocal gid j)) t = true →
      ∃ j2, isSub (.setLocal a b (.getLocal gid j2)) (renames g cs t) = true := by
  induction cs with
  | nil => intro t j h; exact ⟨j, h⟩
  | cons c cs ih =>
      intro t j h
      rw [renames_cons]
      by_cases hel : eligible g c
      · rw [if_pos hel]
        have h2 := isSub_renameGets (g.setInfluences c.trivId) c.destIdx _ t h
        by_cases hg : gid ∈ g.setInfluences c.trivId
        · refine ih (renameGets (g.setInfluences c.trivId) c.destIdx t) c.destIdx ?_
          simpa [renameGets, hg] using h2
        · refine ih (renameGets (g.setInfluences c.trivId) c.destIdx t) j ?_
          simpa [renameGets, hg] using h2
      · rw [if_neg hel]; exact ih t j h

/-- Core fact for eligible copies: every influenced read ends the pass
renamed to the copy's destination slot. -/
theorem pass_renamed_core (A : Expr → LocalGraph) (e : Expr)
    (hc : InflContract (passGraph A e) (instrumented e) (passCopies e))
    (c : Copy) (hcm : c ∈ passCopies e)
    (hel : eligible (passGraph A e) c = true)
    (r : Nat) (hr : r ∈ (passGraph A e).setInfluences c.trivId) :
    lookupGet (runPass A e) r = some c.destIdx := by
  have hlk : lookupGet e r = some c.srcIdx := by
    have h1 := (hc c hcm r hr).1
    rw [show lookupGet (instrumented e) r = lookupGet e r
          from instrument_lookupGet e _ r] at h1
    exact h1
  rw [lookupGet_runPass, hlk]
  refine congrArg some (finalIdxUpd_of_trigger _ _ _ _ _ ?_ ⟨c, hcm, hel, hr⟩)
  intro c' hc' hel' hr'
  rw [trigger_unique (passGraph A e) (instrumented e) (passCopies e) hc
    (passCopies_trivIds_nodup e) hc' hcm hr' hr hel]

/-- Core fact for ineligible copies: every influenced read ends the pass with
its input slot (no other copy can rename it either). -/
theorem pass_unchanged_core (A : Expr → LocalGraph) (e : Expr)
    (hc : InflContract (passGraph A e) (instrumented e) (passCopies e))
    (c : Copy) (hcm : c ∈ passCopies e)
    (hel : eligible (passGraph A e) c = false)
    (r : Nat) (hr : r ∈ (passGraph A e).setInfluences c.trivId) :
    lookupGet (runPass A e) r = lookupGet e r := by
  rw [lookupGet_runPass]
  cases hl : lookupGet e r with
  | none => rfl
  | some o =>
      refine congrArg some (finalIdxUpd_of_not _ _ _ _ ?_)
      intro c' hc' ⟨hel', hr'⟩
      have he : c = c' := trigger_unique (passGraph A e) (instrumented e) (passCopies e)
        hc (passCopies_trivIds_nodup e) hcm hc' hr hr' hel'
      rw [he] at hel
      rw [hel'] at hel
      exact Bool.true_eq_false.mp hel

theorem length_le_one_of_nodup_of_all_eq {α : Type} (l : List α) (hnd : l.Nodup)
    (h : ∀ a ∈ l, ∀ b ∈ l, a = b) : l.length ≤ 1 := by
  match l with
  | [] => simp
  | [x] => simp
  | x :: y :: rest =>
      exfalso
      have hxy : x = y := h x (List.mem_cons_self _ _)
        y (List.mem_cons_of_mem _ (List.mem_cons_self _ _))
      have := (List.nodup_cons.mp hnd).1
      exact this (hxy ▸ List.mem_cons_self y rest)


/-- The contract is decidable for concrete graphs, trees, and copy lists. -/
instance instDecInflContract (g : LocalGraph) (t : Expr) (copies : List Copy) :
    Decidable (InflContract g t copies) :=
  inferInstanceAs (Decidable (∀ c ∈ copies, ∀ r ∈ g.setInfluences c.trivId,
    lookupGet t r = some c.srcIdx ∧ some c.trivId ∈ g.getSetses r))

/-- Failing input for semantics preservation: `D := read S; D := 42; read S`
(slots `S = 0`, `D = 1`).  The final read of `S` has the copy's self-write as
its only reaching definition, so the pass renames it to read `D` — but `D`
was overwritten by `42` in between, so the program's value changes. -/
def copyClobberExample : Expr :=
  .seq 0 (.setLocal 1 1 (.getLocal 2 0))
    (.seq 3 (.setLocal 4 1 (.const 5 42)) (.getLocal 6 0))

/-- Merge example, scenario 2 of the spec: `D := read S; read S` — the later
read is renamed to `D`. -/
def mergeExample : Expr :=
  .seq 0 (.setLocal 1 1 (.getLocal 2 0)) (.getLocal 3 0)

/-- Copy-free tree for the identity claim. -/
def cleanExample : Expr :=
  .seq 0 (.setLocal 1 1 (.const 2 5)) (.getLocal 3 1)

/-- Skip example: one copy whose influenced read is given two reaching
definitions by the (abstract) graph, so the merge must be skipped. -/
def skipExample : Expr :=
  .seq 9 (.setLocal 0 1 (.getLocal 1 0)) (.getLocal 5 0)

/-- An abstract dependency-graph engine for `skipExample` whose
reaching-definition set for the influenced read has two members. -/
def skipGraphA : Expr → LocalGraph := fun _ =>
  { setInfluences := fun s => if s = 10 then [5] else []
    getSetses := fun r => if r = 5 then [some 10, none] else [] }

/-- C1: the pass does not preserve observable behavior on every input.  On
`copyClobberExample` with every local initially `7`, the input evaluates to
`7` but the pass's output evaluates to `42`: the renamed read observes the
intervening write `D := 42` instead of the copied value of `S`.  This
contradicts the spec's semantics-preservation property (a read with the copy
as its only reaching definition is renamed even though the copy's
destination slot is redefined between the copy and the read). -/
theorem claim1_semantics_changed :
    (eval copyClobberExample (fun _ => 7)).2 = 7
    ∧ (eval (mergeLocals copyClobberExample) (fun _ => 7)).2 = 42 := by
  constructor
  · decide
  · decide

/-- C2: soundness of merge — if any read influenced by a copy's self-write
has a reaching-definition set of size other than one, then no read in that
influence set has its slot changed by the pass (under the Dependency Graph
contract over the instrumented tree). -/
theorem claim2_soundness_of_merge (A : Expr → LocalGraph) (e : Expr)
    (hc : InflContract (passGraph A e) (instrumented e) (passCopies e))
    (c : Copy) (hcm : c ∈ passCopies e)
    (hbad : ∃ r0 ∈ (passGraph A e).setInfluences c.trivId,
        ((passGraph A e).getSetses r0).length ≠ 1)
    (r : Nat) (hr : r ∈ (passGraph A e).setInfluences c.trivId) :
    lookupGet (runPass A e) r = lookupGet e r := by
  refine pass_unchanged_core A e hc c hcm ?_ r hr
  rcases hbad with ⟨r0, hr0, hlen⟩
  cases hE : eligible (passGraph A e) c with
  | false => rfl
  | true => exact absurd ((eligible_iff _ _).mp hE r0 hr0) hlen

theorem claim2_witness :
    lookupGet (runPass skipGraphA skipExample) 5 = lookupGet skipExample 5 :=
  claim2_soundness_of_merge skipGraphA skipExample (by decide)
    ⟨0, 1, 10, 0⟩ (by decide) ⟨5, by decide, by decide⟩ 5 (by decide)

/-- C3: completeness of merge — if every read influenced by a copy's
self-write has exactly one reaching definition, then every such read ends
the pass reading the destination slot `D`, and the instrumentation is gone:
the output still contains the copy's write as a plain copy, its value a bare
read node. -/
theorem claim3_completeness_of_merge (A : Expr → LocalGraph) (e : Expr)
    (hnd : (setIds e).Nodup)
    (hc : InflContract (passGraph A e) (instrumented e) (passCopies e))
    (c : Copy) (hcm : c ∈ passCopies e)
    (hall : ∀ r ∈ (passGraph A e).setInfluences c.trivId,
        ((passGraph A e).getSetses r).length = 1) :
    (∀ r ∈ (passGraph A e).setInfluences c.trivId,
        lookupGet (runPass A e) r = some c.destIdx)
    ∧ ∃ gid j,
        isSub (.setLocal c.copyId c.destIdx (.getLocal gid j)) (runPass A e) = true := by
  have hel : eligible (passGraph A e) c = true := (eligible_iff _ _).mpr hall
  constructor
  · intro r hr
    exact pass_renamed_core A e hc c hcm hel r hr
  · obtain ⟨hne, gid, h1, h2⟩ := instrument_shape e (maxId e + 1) c hcm
    rw [runPass_renames A e hnd]
    obtain ⟨j2, hj⟩ :=
      renames_plainCopy (passGraph A e) (passCopies e) c.copyId c.destIdx gid e c.srcIdx h2
    exact ⟨gid, j2, hj⟩

theorem claim3_witness :
    lookupGet (runPass computeLocalGraph mergeExample) 3 = some 1 := by
  have h := claim3_completeness_of_merge computeLocalGraph mergeExample
    (by decide) (by decide) ⟨1, 1, 4, 0⟩ (by decide) (by decide)
  exact h.1 3 (by decide)

/-- C4: copy detection and instrumentation — the walk records exactly the
writes whose value is a read of a different slot, in traversal encounter
order (`copySpec`); each recorded copy appears in the instrumented tree
wrapped as `D := (S := read S)` around the original read where the input had
the plain `D := read S`; and unwrapping every recorded copy recovers the
input tree exactly, so everything else is untouched. -/
theorem claim4_copy_detection (e : Expr) (hnd : (setIds e).Nodup) :
    (passCopies e).map (fun c => (c.copyId, c.destIdx, c.srcIdx)) = copySpec e
    ∧ (∀ c ∈ passCopies e,
        c.destIdx ≠ c.srcIdx
        ∧ ∃ gid,
            isSub (.setLocal c.copyId c.destIdx
                (.setLocal c.trivId c.srcIdx (.getLocal gid c.srcIdx)))
              (instrumented e) = true
            ∧ isSub (.setLocal c.copyId c.destIdx (.getLocal gid c.srcIdx)) e = true)
    ∧ unwrapAll (passCopies e) (instrumented e) = e := by
  refine ⟨instrument_copySpec e _, fun c hc => instrument_shape e _ c hc, ?_⟩
  refine instrument_unwrapAll e _ hnd ?_
  intro x hx
  have := le_maxId e x (setIds_sub_allIds e x hx)
  omega

theorem claim4_witness :
    (setIds mergeExample).Nodup
    ∧ (passCopies mergeExample).map (fun c => (c.copyId, c.destIdx, c.srcIdx))
        = copySpec mergeExample
    ∧ unwrapAll (passCopies mergeExample) (instrumented mergeExample) = mergeExample :=
  ⟨by decide, (claim4_copy_detection mergeExample (by decide)).1,
    (claim4_copy_detection mergeExample (by decide)).2.2⟩

/-- C5: unconditional cleanup and no instrumentation leakage — for every
recorded copy, merged or skipped, the output contains the copy's write as a
plain copy again (its value the original read node, whose slot may have been
renamed by an earlier merge), and no trivial self-write id the
instrumentation allocated occurs anywhere in the output tree. -/
theorem claim5_cleanup_no_leak (A : Expr → LocalGraph) (e : Expr)
    (hnd : (setIds e).Nodup) :
    (∀ c ∈ passCopies e, ∃ gid j,
        isSub (.setLocal c.copyId c.destIdx (.getLocal gid j)) (runPass A e) = true)
    ∧ ∀ c ∈ passCopies e, c.trivId ∉ allIds (runPass A e) := by
  constructor
  · intro c hcm
    obtain ⟨hne, gid, h1, h2⟩ := instrument_shape e (maxId e + 1) c hcm
    rw [runPass_renames A e hnd]
    obtain ⟨j2, hj⟩ :=
      renames_plainCopy (passGraph A e) (passCopies e) c.copyId c.destIdx gid e c.srcIdx h2
    exact ⟨gid, j2, hj⟩
  · intro c hcm hmem
    rw [runPass_renames A e hnd, allIds_renames] at hmem
    have h1 := passCopies_trivId_ge e c hcm
    have h2 := le_maxId e _ hmem
    omega

theorem claim5_witness :
    (setIds mergeExample).Nodup
    ∧ (4 : Nat) ∉ allIds (runPass computeLocalGraph mergeExample) :=
  ⟨by decide,
    (claim5_cleanup_no_leak computeLocalGraph mergeExample (by decide)).2
      ⟨1, 1, 4, 0⟩ (by decide)⟩

/-- C6: all-or-nothing — for every recorded copy, either every read in its
influence set ends the pass renamed to the destination slot, or every one
ends the pass with its input slot; no strict non-empty non-total subset is
renamed. -/
theorem claim6_all_or_nothing (A : Expr → LocalGraph) (e : Expr)
    (hc : InflContract (passGraph A e) (instrumented e) (passCopies e))
    (c : Copy) (hcm : c ∈ passCopies e) :
    (∀ r ∈ (passGraph A e).setInfluences c.trivId,
        lookupGet (runPass A e) r = some c.destIdx)
    ∨ ∀ r ∈ (passGraph A e).setInfluences c.trivId,
        lookupGet (runPass A e) r = lookupGet e r := by
  cases hE : eligible (passGraph A e) c with
  | true =>
      left
      intro r hr
      exact pass_renamed_core A e hc c hcm hE r hr
  | false =>
      right
      intro r hr
      exact pass_unchanged_core A e hc c hcm hE r hr

theorem claim6_witness :
    (∀ r ∈ (passGraph computeLocalGraph mergeExample).setInfluences (4 : Nat),
        lookupGet (runPass computeLocalGraph mergeExample) r = some 1)
    ∨ ∀ r ∈ (passGraph computeLocalGraph mergeExample).setInfluences (4 : Nat),
        lookupGet (runPass computeLocalGraph mergeExample) r
          = lookupGet mergeExample r :=
  claim6_all_or_nothing computeLocalGraph mergeExample (by decide) ⟨1, 1, 4, 0⟩ (by decide)

/-- C7: the two internal assertions hold under the Dependency Graph
contract — when a copy is processed (its predecessors in the recorded list
already rewritten), every read influenced by its self-write still reads the
self-write's slot in the intermediate tree, and whenever such a read's
reaching-definition set is a singleton, its member is that self-write. -/
theorem claim7_asserts_hold (A : Expr → LocalGraph) (e : Expr)
    (hc : InflContract (passGraph A e) (instrumented e) (passCopies e))
    (pre : List Copy) (c : Copy) (post : List Copy)
    (hsplit : passCopies e = pre ++ c :: post)
    (r : Nat) (hr : r ∈ (passGraph A e).setInfluences c.trivId) :
    lookupGet (optimizeCopies (passGraph A e) pre (instrumented e)) r = some c.srcIdx
    ∧ (((passGraph A e).getSetses r).length = 1 →
        (passGraph A e).getSetses r = [some c.trivId]) := by
  have hcm : c ∈ passCopies e := by
    rw [hsplit]
    exact List.mem_append.mpr (Or.inr (List.mem_cons_self _ _))
  have hnp : c ∉ pre := by
    intro hcp
    have hnd := passCopies_trivIds_nodup e
    rw [hsplit, List.map_append] at hnd
    have hdis := (List.nodup_append.mp hnd).2.2
    exact hdis (List.mem_map_of_mem _ hcp)
      (show c.trivId ∈ (c :: post).map Copy.trivId from
        List.mem_map_of_mem _ (List.mem_cons_self _ _))
  constructor
  · rw [lookupGet_optimizeCopies, (hc c hcm r hr).1]
    refine congrArg some (finalIdxUpd_of_not _ _ _ _ ?_)
    rintro c' hc' ⟨hel', hr'⟩
    have hc'mem : c' ∈ passCopies e := by
      rw [hsplit]
      exact List.mem_append.mpr (Or.inl hc')
    have heq : c = c' := trigger_unique (passGraph A e) (instrumented e) (passCopies e)
      hc (passCopies_trivIds_nodup e) hcm hc'mem hr hr' hel'
    exact hnp (heq ▸ hc')
  · intro hlen
    exact eq_singleton_of_length_one hlen (hc c hcm r hr).2

theorem claim7_witness :
    lookupGet (optimizeCopies (passGraph computeLocalGraph mergeExample) []
        (instrumented mergeExample)) 3 = some 0
    ∧ (((passGraph computeLocalGraph mergeExample).getSetses 3).length = 1 →
        (passGraph computeLocalGraph mergeExample).getSetses 3 = [some 4]) :=
  claim7_asserts_hold computeLocalGraph mergeExample (by decide)
    [] ⟨1, 1, 4, 0⟩ [] (by decide) 3 (by decide)

/-- C8: identity on clean input — a function containing no write whose value
is a read of a different slot is returned unchanged by the pass. -/
theorem claim8_identity_on_clean (e : Expr) (h : hasCopy e = false) :
    mergeLocals e = e := by
  have hi := instrument_of_not_hasCopy e (maxId e + 1) h
  show optimizeCopies _ (passCopies e) (instrumented e) = e
  rw [show passCopies e = (instrument (maxId e + 1) e).2.1 from rfl,
    show instrumented e = (instrument (maxId e + 1) e).1 from rfl, hi]
  rfl

theorem claim8_witness :
    hasCopy cleanExample = false ∧ mergeLocals cleanExample = cleanExample :=
  ⟨by decide, claim8_identity_on_clean cleanExample (by decide)⟩

/-- C9: single-snapshot discipline — the pass equals the eligible renames,
decided and enumerated entirely from the one graph `A` computes from the
instrumented tree before any copy is processed, applied after the cleanups;
no decision consults a recomputed graph or an intermediate tree.  The
concrete pass instantiates the engine with the modelled analysis. -/
theorem claim9_single_snapshot (A : Expr → LocalGraph) (e : Expr) :
    runPass A e
      = renames (A (instrumented e)) (passCopies e)
          (unwrapAll (passCopies e) (instrumented e))
    ∧ mergeLocals e = runPass computeLocalGraph e :=
  ⟨optimizeCopies_factor _ _ _, rfl⟩

/-- C10: frame property — the output tree is the input tree up to the slot
indices of read nodes (`skeleton` erases exactly those and is preserved, so
every write keeps its destination slot and every node keeps its place), and
for every read id at most one copy's rename fires during the pass. -/
theorem claim10_frame (A : Expr → LocalGraph) (e : Expr)
    (hnd : (setIds e).Nodup)
    (hc : InflContract (passGraph A e) (instrumented e) (passCopies e)) :
    skeleton (runPass A e) = skeleton e
    ∧ ∀ r : Nat,
        ((passCopies e).filter fun c =>
            eligible (passGraph A e) c
              && decide (r ∈ (passGraph A e).setInfluences c.trivId)).length ≤ 1 := by
  constructor
  · rw [runPass_renames A e hnd, skeleton_renames]
  · intro r
    refine length_le_one_of_nodup_of_all_eq _ ((passCopies_nodup e).filter _) ?_
    intro a ha b hb
    rw [List.mem_filter] at ha hb
    obtain ⟨ham, hap⟩ := ha
    obtain ⟨hbm, hbp⟩ := hb
    rw [Bool.and_eq_true, decide_eq_true_eq] at hap hbp
    exact trigger_unique (passGraph A e) (instrumented e) (passCopies e)
      hc (passCopies_trivIds_nodup e) ham hbm hap.2 hbp.2 hbp.1

theorem claim10_witness :
    skeleton (runPass computeLocalGraph mergeExample) = skeleton mergeExample :=
  (claim10_frame computeLocalGraph mergeExample (by decide) (by decide)).1

end Wasm
